import Mathlib

/-!
Verification development for `ollama_subs.py`, an SRT subtitle translator.

The script is embedded shallowly:

* Python strings are modelled as `String` / `List Char`; `str.strip()` is
  `trimChars`, `str.split('\n')` is `splitLines`.
* `re.split(r'\n\n+', s)` on an already-stripped string cuts `s` exactly at
  maximal runs of two or more newlines, i.e. the resulting blocks are the
  maximal groups of consecutive non-empty lines of `s`; `groupBlocks`
  computes those groups directly.
* `re.sub(r'\D', '', s)` is `digitsOnly`.
* The regex `^(\d+)\s*>>>\s*(.*)` (no backtracking can succeed beyond the
  greedy reading, since a digit is neither whitespace nor `>`) is
  `matchNewBlockChars`.
* A Python `dict` is an insertion-ordered association list `TranslationMap`;
  assignment is `mapInsert` (overwrite keeps the position), `{**a, **b}` is
  `mapUnion`, `in` is `mapContains`, subscript is `mapLookup`.
* The Ollama backend is an oracle `Nat → Option String` giving, for each
  successive `ollama.chat` call (calls are numbered by a threaded counter),
  either a reply text or `none` for a raised transport exception.
* `process_batch_recursive` recurses on strictly shorter batches; it is
  embedded with a structural fuel parameter set to `batch.length + 1`,
  which is always sufficient (`processAux_fuel_irrel`).
-/

/-- Python `str.strip()` on a list of characters (both ends). -/
def trimChars (cs : List Char) : List Char :=
  ((cs.dropWhile Char.isWhitespace).reverse.dropWhile Char.isWhitespace).reverse

/-- Python `str.split('\n')`. -/
def splitLines : List Char → List (List Char)
  | [] => [[]]
  | c :: rest =>
    if c = '\n' then [] :: splitLines rest
    else
      match splitLines rest with
      | [] => [[c]]
      | l :: ls => (c :: l) :: ls

/-- Python `re.sub(r'\D', '', s)`: keep only the digits. -/
def digitsOnly (cs : List Char) : List Char :=
  cs.filter Char.isDigit

/-- One subtitle record, as built by `parse_srt`
(`{"index": ..., "timestamp": ..., "text": ..., "translated_text": ...}`). -/
structure SubtitleRecord where
  index : String
  timestamp : String
  text : String
  translated_text : String
deriving DecidableEq, Repr

/-- The body of the `for block in blocks` loop of `parse_srt`: a block of at
least 3 lines yields a record (index digit-stripped, timestamp stripped,
remaining lines rejoined with newlines); shorter blocks are dropped. -/
def parseBlock (b : List (List Char)) : Option SubtitleRecord :=
  if 3 ≤ b.length then
    some { index := String.mk (digitsOnly (trimChars (b.headD [])))
           timestamp := String.mk (trimChars (b.getD 1 []))
           text := String.mk (List.intercalate ['\n'] (b.drop 2))
           translated_text := "" }
  else none

/-- Helper for `groupBlocks`: returns the group of non-empty lines currently
being collected at the front, and the finished groups after it. -/
def groupBlocksAux : List (List Char) → List (List Char) × List (List (List Char))
  | [] => ([], [])
  | l :: rest =>
    let p := groupBlocksAux rest
    if l.isEmpty then ([], if p.1.isEmpty then p.2 else p.1 :: p.2)
    else (l :: p.1, p.2)

/-- The maximal groups of consecutive non-empty lines: the blocks that
`re.split(r'\n\n+', content)` produces on a stripped string (empty blocks,
which the length filter of `parseBlock` would drop anyway, do not arise). -/
def groupBlocks (ls : List (List Char)) : List (List (List Char)) :=
  let p := groupBlocksAux ls
  if p.1.isEmpty then p.2 else p.1 :: p.2

/-- `parse_srt(content)`: strip the input, split it into blank-line-separated
blocks, and turn every block of at least 3 lines into a record. -/
def parse_srt (content : String) : List SubtitleRecord :=
  (groupBlocks (splitLines (trimChars content.data))).filterMap parseBlock

/-- The translation map built per attempt: a Python dict from subtitle ID to
translated text, as an insertion-ordered association list. -/
abbrev TranslationMap := List (String × String)

/-- Python dict assignment `m[k] = v`: overwrite in place, else append. -/
def mapInsert (m : TranslationMap) (k v : String) : TranslationMap :=
  if m.any (fun p => p.1 == k) then
    m.map (fun p => if p.1 == k then (k, v) else p)
  else m ++ [(k, v)]

/-- Python `k in m` for a dict. -/
def mapContains (m : TranslationMap) (k : String) : Bool :=
  (m.find? (fun p => p.1 == k)).isSome

/-- Python `m[k]` for a dict, as an `Option`. -/
def mapLookup (m : TranslationMap) (k : String) : Option String :=
  (m.find? (fun p => p.1 == k)).map (fun p => p.2)

/-- Python `{**l, **r}`: start from `l` and insert every entry of `r`. -/
def mapUnion (l r : TranslationMap) : TranslationMap :=
  r.foldl (fun acc p => mapInsert acc p.1 p.2) l

/-- `^(\d+)\s*>>>\s*(.*)` applied with `re.match` to a single line: on
success, the captured digit group and the remainder after the delimiter and
any following whitespace. -/
def matchNewBlockChars (cs : List Char) : Option (List Char × List Char) :=
  let ds := cs.takeWhile Char.isDigit
  if ds.isEmpty then none
  else
    match (cs.dropWhile Char.isDigit).dropWhile Char.isWhitespace with
    | '>' :: '>' :: '>' :: rest => some (ds, rest.dropWhile Char.isWhitespace)
    | _ => none

/-- Loop state of `parse_llm_response`: the map built so far, the current ID
(if any), and the accumulated text lines for it. -/
abbrev LlmState := TranslationMap × Option String × List (List Char)

/-- `translation_map[current_id] = "\n".join(current_text_lines).strip()`,
guarded by `current_id is not None`. -/
def flushTo (m : TranslationMap) (cur : Option String) (ls : List (List Char)) :
    TranslationMap :=
  match cur with
  | none => m
  | some cid => mapInsert m cid (String.mk (trimChars (List.intercalate ['\n'] ls)))

/-- One iteration of the `for line in lines` loop of `parse_llm_response`:
strip the line, skip it if blank; on a new-entry match flush the previous
entry and restart the accumulator; otherwise append the (stripped) line to
the active entry, if any. -/
def llmStep (st : LlmState) (rawLine : List Char) : LlmState :=
  let line := trimChars rawLine
  if line.isEmpty then st
  else
    match matchNewBlockChars line with
    | some (ds, textPart) =>
      (flushTo st.1 st.2.1 st.2.2, some (String.mk ds),
        if textPart.isEmpty then [] else [textPart])
    | none =>
      match st.2.1 with
      | some _ => (st.1, st.2.1, st.2.2 ++ [line])
      | none => st

/-- `parse_llm_response(response_text)`: fold the loop over the stripped
response's lines, then flush the final entry. -/
def parse_llm_response (s : String) : TranslationMap :=
  let fin := (splitLines (trimChars s.data)).foldl llmStep ([], none, [])
  flushTo fin.1 fin.2.1 fin.2.2

/-- The `for attempt in range(1, args.retries + 1)` loop of
`process_batch_recursive`: each attempt consumes one backend call (oracle
index); a transport failure (`none`) is retried, a reply is parsed and
returned with the advanced counter when no batch ID is missing. Yields
`none` and the final counter when all attempts are exhausted. -/
def attemptLoop (batchIds : List String) (oracle : Nat → Option String) :
    Nat → Nat → Option TranslationMap × Nat
  | ctr, 0 => (none, ctr)
  | ctr, Nat.succ k =>
    match oracle ctr with
    | none => attemptLoop batchIds oracle (ctr + 1) k
    | some reply =>
      let m := parse_llm_response reply
      let missing := batchIds.filter (fun bid => !(mapContains m bid))
      if missing.isEmpty then (some m, ctr + 1)
      else attemptLoop batchIds oracle (ctr + 1) k

/-- Result of one `process_batch_recursive` call: the returned map, the
backend-call counter after the call, and the maximal `depth` argument
reached in the call tree (the function threads `depth` for log indentation;
the field witnesses how deep the recursion went). -/
structure ProcResult where
  map : TranslationMap
  next : Nat
  depth : Nat
deriving DecidableEq, Repr

/-- Body of `process_batch_recursive`, with structural fuel (always called
with fuel exceeding the batch length, see `processAux_fuel_irrel`):
try `retries` attempts; on exhaustion return `{}` for a batch of at most one
record, else split at `len(batch) // 2`, recurse on both halves with the
same retry budget, and return `{**results_left, **results_right}`. -/
def processAux (retries : Nat) (oracle : Nat → Option String) :
    Nat → List SubtitleRecord → Nat → Nat → ProcResult
  | 0, _, ctr, depth => ⟨[], ctr, depth⟩
  | Nat.succ fuel, batch, ctr, depth =>
    match attemptLoop (batch.map (fun s => s.index)) oracle ctr retries with
    | (some m, c) => ⟨m, c, depth⟩
    | (none, c) =>
      if batch.length ≤ 1 then ⟨[], c, depth⟩
      else
        let mid := batch.length / 2
        let rl := processAux retries oracle fuel (batch.take mid) c (depth + 1)
        let rr := processAux retries oracle fuel (batch.drop mid) rl.next (depth + 1)
        ⟨mapUnion rl.map rr.map, rr.next, max rl.depth rr.depth⟩

/-- `process_batch_recursive(batch, args, depth)` with the backend-call
counter made explicit. -/
def process_batch_recursive (batch : List SubtitleRecord) (retries : Nat)
    (oracle : Nat → Option String) (ctr depth : Nat) : ProcResult :=
  processAux retries oracle (batch.length + 1) batch ctr depth

/-- The merge loop of `main`: for each record of the batch, set
`translated_text` to the mapped value if the map is non-empty (truthy) and
contains the record's index, else fall back to the source text. -/
def applyMapToBatch (m : TranslationMap) (batch : List SubtitleRecord) : List SubtitleRecord :=
  batch.map (fun sub =>
    if m.isEmpty then { sub with translated_text := sub.text }
    else
      match mapLookup m sub.index with
      | some v => { sub with translated_text := v }
      | none => { sub with translated_text := sub.text })

/-- Helper for `chunk`, with structural fuel (`l.length` always suffices
for a positive chunk size). -/
def chunkAux (size : Nat) : Nat → List SubtitleRecord → List (List SubtitleRecord)
  | 0, _ => []
  | Nat.succ fuel, l =>
    if l.isEmpty then [] else l.take size :: chunkAux size fuel (l.drop size)

/-- `[subtitles[i:i + batch_size] for i in range(0, total, batch_size)]`.
(A chunk size of 0 would raise `ValueError` in Python; it is mapped to the
empty batch list here and never used.) -/
def chunk (size : Nat) (l : List SubtitleRecord) : List (List SubtitleRecord) :=
  if size = 0 then [] else chunkAux size l.length l

/-- The batch loop of `main`: process each batch in order, threading the
backend-call counter, and merge each batch's map into its records. The
concatenation of the merged batches is the final record sequence, since the
batches partition the parsed records in order. -/
def runBatches (retries : Nat) (oracle : Nat → Option String) :
    List (List SubtitleRecord) → Nat → List SubtitleRecord
  | [], _ => []
  | b :: rest, ctr =>
    let r := process_batch_recursive b retries oracle ctr 0
    applyMapToBatch r.map b ++ runBatches retries oracle rest r.next

/-- The full pipeline of `main` after reading stdin: parse, chunk, translate
batch by batch, merge. -/
def runPipeline (content : String) (batchSize retries : Nat)
    (oracle : Nat → Option String) : List SubtitleRecord :=
  runBatches retries oracle (chunk batchSize (parse_srt content)) 0

/-- The characters one record contributes to stdout:
`f"{index}\n{timestamp}\n{translated_text}\n\n"`. -/
def blockChars (s : SubtitleRecord) : List Char :=
  s.index.data ++ '\n' :: (s.timestamp.data ++ '\n' :: (s.translated_text.data ++ ['\n', '\n']))

/-- The output loop of `main`: concatenate every record's block. -/
def serialize (subs : List SubtitleRecord) : String :=
  String.mk ((subs.map blockChars).flatten)

/-- Set `translated_text` to the source text (the driver's fallback; also
how the round-trip property prepares records for serialization). -/
def setFallback (s : SubtitleRecord) : SubtitleRecord :=
  { s with translated_text := s.text }

/-- The character stream of a sequence of blocks: lines of a block joined by
single newlines, blocks separated by one blank line (`"\n\n"`). Feeding
`String.mk (glueChars bls)` to `parse_srt` models a well-formed SRT input
made of exactly those blocks. -/
def glueChars (bls : List (List (List Char))) : List Char :=
  List.intercalate ['\n'] (List.intercalate [[]] bls)

/-- The record `parse_srt` builds from one accepted block, phrased over the
block's lines as strings (index digit-stripped, timestamp stripped, the
remaining lines rejoined with newlines). -/
def recordOfBlock (b : List String) : SubtitleRecord :=
  { index := String.mk (digitsOnly (trimChars (b.headD "").data))
    timestamp := String.mk (trimChars ((b.getD 1 "").data))
    text := String.mk (List.intercalate ['\n'] ((b.drop 2).map String.data))
    translated_text := "" }

/-- The lines of the block that serializing `setFallback (recordOfBlock b)`
emits: the digit-stripped index, the stripped timestamp, and the text lines. -/
def newBlockLines (b : List String) : List (List Char) :=
  digitsOnly (trimChars (b.headD "").data)
    :: trimChars ((b.getD 1 "").data)
    :: (b.drop 2).map String.data

/-- Demo batch with IDs 3–6 (the validation-correctness scenario of the spec). -/
def demoBatch46 : List SubtitleRecord :=
  [⟨"3", "t3", "a", ""⟩, ⟨"4", "t4", "b", ""⟩, ⟨"5", "t5", "c", ""⟩, ⟨"6", "t6", "d", ""⟩]

/-- A backend that always replies with a parseable map covering IDs 3, 4 and 6
but missing ID 5. -/
def demoOracle46 : Nat → Option String :=
  fun _ => some "3 >>> tA\n4 >>> tB\n6 >>> tD"

/- ------------------------------------------------------------------ -/
/- Helper lemmas -/
/- ------------------------------------------------------------------ -/

theorem processAux_fuel_irrel (retries : Nat) (oracle : Nat → Option String) :
    ∀ f1 f2 (batch : List SubtitleRecord) (ctr depth : Nat),
      batch.length < f1 → batch.length < f2 →
      processAux retries oracle f1 batch ctr depth =
        processAux retries oracle f2 batch ctr depth := by
  intro f1
  induction f1 with
  | zero => intro f2 batch ctr depth h1 h2; omega
  | succ f ih =>
    intro f2 batch ctr depth h1 h2
    cases f2 with
    | zero => omega
    | succ g =>
      simp only [processAux]
      cases hA : attemptLoop (batch.map fun s => s.index) oracle ctr retries with
      | mk om c =>
        cases om with
        | some m => rfl
        | none =>
          by_cases hle : batch.length ≤ 1
          · simp [hle]
          · simp only [if_neg hle]
            have hmid : batch.length / 2 < batch.length := by omega
            have htk : (batch.take (batch.length / 2)).length < f := by
              simp [List.length_take]; omega
            have htk2 : (batch.take (batch.length / 2)).length < g := by
              simp [List.length_take]; omega
            have hdp : (batch.drop (batch.length / 2)).length < f := by
              simp [List.length_drop]; omega
            have hdp2 : (batch.drop (batch.length / 2)).length < g := by
              simp [List.length_drop]; omega
            rw [ih g _ _ _ htk htk2, ih g _ _ _ hdp hdp2]

theorem attemptLoop_some_contains (batchIds : List String)
    (oracle : Nat → Option String) :
    ∀ retries ctr (m : TranslationMap) (c : Nat),
      attemptLoop batchIds oracle ctr retries = (some m, c) →
      ∀ bid ∈ batchIds, mapContains m bid = true := by
  intro retries
  induction retries with
  | zero => intro ctr m c h; simp [attemptLoop] at h
  | succ k ih =>
    intro ctr m c h
    simp only [attemptLoop] at h
    cases ho : oracle ctr with
    | none => rw [ho] at h; exact ih _ _ _ h
    | some reply =>
      rw [ho] at h
      simp only at h
      by_cases hm : (batchIds.filter
          (fun bid => !(mapContains (parse_llm_response reply) bid))).isEmpty
      · rw [if_pos hm] at h
        have hmap : parse_llm_response reply = m := by
          have := congrArg Prod.fst h
          simpa using this
        intro bid hbid
        have hnil := List.isEmpty_iff.mp hm
        have := List.filter_eq_nil_iff.mp hnil bid hbid
        subst hmap
        simpa using this
      · rw [if_neg hm] at h
        exact ih _ _ _ h

theorem attemptLoop_fail (i : String) (oracle : Nat → Option String) :
    ∀ retries ctr,
      (∀ k, k < retries → ∀ r, oracle (ctr + k) = some r →
        mapContains (parse_llm_response r) i = false) →
      attemptLoop [i] oracle ctr retries = (none, ctr + retries) := by
  intro retries
  induction retries with
  | zero => intro ctr h; simp [attemptLoop]
  | succ k ih =>
    intro ctr h
    have hshift : ∀ j, j < k → ∀ r, oracle (ctr + 1 + j) = some r →
        mapContains (parse_llm_response r) i = false := by
      intro j hj r hr
      exact h (j + 1) (by omega) r (by rw [← hr]; congr 1; omega)
    cases ho : oracle ctr with
    | none =>
      simp only [attemptLoop, ho]
      rw [ih (ctr + 1) hshift]
      congr 1
      omega
    | some reply =>
      have hc := h 0 (by omega) reply (by simpa using ho)
      have hfil : (List.filter
          (fun bid => !mapContains (parse_llm_response reply) bid) [i]).isEmpty = false := by
        simp [hc]
      simp only [attemptLoop, ho, hfil, Bool.false_eq_true, if_false]
      rw [ih (ctr + 1) hshift]
      congr 1
      omega

theorem process_of_attempt_success (batch : List SubtitleRecord) (retries : Nat)
    (oracle : Nat → Option String) (ctr depth : Nat) (m : TranslationMap) (c : Nat)
    (h : attemptLoop (batch.map fun s => s.index) oracle ctr retries = (some m, c)) :
    process_batch_recursive batch retries oracle ctr depth = ⟨m, c, depth⟩ := by
  simp only [process_batch_recursive, processAux, h]

theorem process_of_attempt_fail_small (batch : List SubtitleRecord) (retries : Nat)
    (oracle : Nat → Option String) (ctr depth : Nat) (c : Nat)
    (hlen : batch.length ≤ 1)
    (h : attemptLoop (batch.map fun s => s.index) oracle ctr retries = (none, c)) :
    process_batch_recursive batch retries oracle ctr depth = ⟨[], c, depth⟩ := by
  simp only [process_batch_recursive, processAux, h, if_pos hlen]

theorem process_of_attempt_fail_split (batch : List SubtitleRecord) (retries : Nat)
    (oracle : Nat → Option String) (ctr depth : Nat) (c : Nat)
    (hlen : 2 ≤ batch.length)
    (h : attemptLoop (batch.map fun s => s.index) oracle ctr retries = (none, c)) :
    process_batch_recursive batch retries oracle ctr depth =
      (let rl := process_batch_recursive (batch.take (batch.length / 2)) retries oracle
        c (depth + 1)
       let rr := process_batch_recursive (batch.drop (batch.length / 2)) retries oracle
        rl.next (depth + 1)
       ⟨mapUnion rl.map rr.map, rr.next, max rl.depth rr.depth⟩) := by
  have hle : ¬ batch.length ≤ 1 := by omega
  simp only [process_batch_recursive, processAux, h, if_neg hle]
  have htk : (batch.take (batch.length / 2)).length < batch.length := by
    simp [List.length_take]; omega
  have hdp : (batch.drop (batch.length / 2)).length < batch.length := by
    simp [List.length_drop]; omega
  rw [processAux_fuel_irrel retries oracle batch.length
        ((batch.take (batch.length / 2)).length + 1) _ _ _ (by omega) (by omega),
      processAux_fuel_irrel retries oracle batch.length
        ((batch.drop (batch.length / 2)).length + 1) _ _ _ (by omega) (by omega)]
  rfl

/- ------------------------------------------------------------------ -/
/- Claim theorems -/
/- ------------------------------------------------------------------ -/

/-- C2: the attempt loop returns a map through its success exit only when
that map contains every ID of the batch; concretely, with a backend reply
covering IDs 3, 4 and 6 but missing ID 5, the attempt loop for the batch
{3,4,5,6} does not succeed, and the translator bisects the batch into
{3,4} and {5,6} and returns the union of the two halves' maps. -/
theorem claim2_success_exit :
    (∀ (batchIds : List String) (oracle : Nat → Option String)
        (retries ctr : Nat) (m : TranslationMap) (c : Nat),
        attemptLoop batchIds oracle ctr retries = (some m, c) →
        ∀ bid ∈ batchIds, mapContains m bid = true)
    ∧ ((attemptLoop (demoBatch46.map fun s => s.index) demoOracle46 0 2).1 = none
       ∧ process_batch_recursive demoBatch46 2 demoOracle46 0 0 =
          (let rl := process_batch_recursive (demoBatch46.take (demoBatch46.length / 2))
            2 demoOracle46 2 1
           let rr := process_batch_recursive (demoBatch46.drop (demoBatch46.length / 2))
            2 demoOracle46 rl.next 1
           ⟨mapUnion rl.map rr.map, rr.next, max rl.depth rr.depth⟩)) := by
  refine ⟨fun ids oracle retries ctr m c h => attemptLoop_some_contains ids oracle retries ctr m c h, ?_, ?_⟩
  · decide
  · decide

/-- Witness for C2: a complete reply for the singleton batch {1} is accepted,
and the accepted map indeed contains ID 1. -/
theorem claim2_witness : mapContains [("1", "Hola")] "1" = true :=
  claim2_success_exit.1 ["1"] (fun _ => some "1 >>> Hola") 2 0 [("1", "Hola")] 1
    (by decide) "1" (by decide)

/-- C3: when a batch of at least 2 records exhausts all attempts without a
complete map, the translator splits the batch at the midpoint (the left half
is the first `len // 2` records, the right half the rest), recursively
translates each half with the same retry budget, and returns the union of
the two halves' maps. -/
theorem claim3_midpoint_split (batch : List SubtitleRecord) (retries : Nat)
    (oracle : Nat → Option String) (ctr depth c : Nat)
    (hlen : 2 ≤ batch.length)
    (h : attemptLoop (batch.map fun s => s.index) oracle ctr retries = (none, c)) :
    process_batch_recursive batch retries oracle ctr depth =
      (let rl := process_batch_recursive (batch.take (batch.length / 2)) retries oracle
        c (depth + 1)
       let rr := process_batch_recursive (batch.drop (batch.length / 2)) retries oracle
        rl.next (depth + 1)
       ⟨mapUnion rl.map rr.map, rr.next, max rl.depth rr.depth⟩) :=
  process_of_attempt_fail_split batch retries oracle ctr depth c hlen h

/-- Witness for C3: a two-record batch whose only attempt hits a transport
failure splits into its two singleton halves. -/
theorem claim3_witness :
    process_batch_recursive [⟨"1", "t", "a", ""⟩, ⟨"2", "t", "b", ""⟩] 1
        (fun _ => none) 0 0 =
      (let rl := process_batch_recursive
        (([⟨"1", "t", "a", ""⟩, ⟨"2", "t", "b", ""⟩] : List SubtitleRecord).take
          (([⟨"1", "t", "a", ""⟩, ⟨"2", "t", "b", ""⟩] : List SubtitleRecord).length / 2))
        1 (fun _ => none) 1 1
       let rr := process_batch_recursive
        (([⟨"1", "t", "a", ""⟩, ⟨"2", "t", "b", ""⟩] : List SubtitleRecord).drop
          (([⟨"1", "t", "a", ""⟩, ⟨"2", "t", "b", ""⟩] : List SubtitleRecord).length / 2))
        1 (fun _ => none) rl.next 1
       ⟨mapUnion rl.map rr.map, rr.next, max rl.depth rr.depth⟩) :=
  claim3_midpoint_split [⟨"1", "t", "a", ""⟩, ⟨"2", "t", "b", ""⟩] 1
    (fun _ => none) 0 0 1 (by decide) (by decide)

/-- C4: a single-record batch whose every attempt yields a reply not
containing its ID (or a transport failure) returns the empty map with the
input depth unchanged (no recursion), and the driver's merge step with an
empty map sets the record's `translated_text` to its source text. -/
theorem claim4_single_record_exhaustion (s : SubtitleRecord) (retries : Nat)
    (oracle : Nat → Option String) (ctr depth : Nat)
    (hfail : ∀ k, k < retries → ∀ r, oracle (ctr + k) = some r →
      mapContains (parse_llm_response r) s.index = false) :
    process_batch_recursive [s] retries oracle ctr depth = ⟨[], ctr + retries, depth⟩
    ∧ applyMapToBatch [] [s] = [setFallback s] := by
  constructor
  · have hA : attemptLoop [s.index] oracle ctr retries = (none, ctr + retries) :=
      attemptLoop_fail s.index oracle retries ctr hfail
    exact process_of_attempt_fail_small [s] retries oracle ctr depth _ (by simp)
      (by simpa using hA)
  · simp [applyMapToBatch, setFallback]

/-- Witness for C4: a single record with ID 1 facing a backend that always
replies unparseable text falls back to the source text. -/
theorem claim4_witness :
    process_batch_recursive [⟨"1", "t", "Hi", ""⟩] 2 (fun _ => some "garbage") 0 0 =
      ⟨[], 0 + 2, 0⟩
    ∧ applyMapToBatch [] [⟨"1", "t", "Hi", ""⟩] = [setFallback ⟨"1", "t", "Hi", ""⟩] :=
  claim4_single_record_exhaustion ⟨"1", "t", "Hi", ""⟩ 2 (fun _ => some "garbage") 0 0
    (by intro k hk r hr; injection hr with h; subst h; decide)

/-- C6: the reply `"1 >>> Hello\nworld\n2 >>> Bye"` parses to exactly the map
`{"1": "Hello\nworld", "2": "Bye"}`. -/
theorem claim6_multiline_reconstruction :
    parse_llm_response "1 >>> Hello\nworld\n2 >>> Bye" =
      [("1", "Hello\nworld"), ("2", "Bye")] := by
  decide

/-- C1 counterexample: with a backend reply `"1 >>>"` (ID with empty
remainder), the pipeline's output record has an EMPTY `translated_text`,
refuting the claim that every record ends with a non-empty one. -/
theorem claim1_counterexample :
    runPipeline "1\n00:00\nHi" 20 2 (fun _ => some "1 >>>") =
      [⟨"1", "00:00", "Hi", ""⟩]
    ∧ (parse_srt "1\n00:00\nHi").map (fun s => s.text) = ["Hi"] := by
  decide

/-- C7 counterexample: the continuation line `"  world  "` is appended
STRIPPED, not verbatim — the parsed value is `"Hi\nworld"`, not
`"Hi\n  world  "`. -/
theorem claim7_counterexample :
    parse_llm_response "1 >>> Hi\n  world  " = [("1", "Hi\nworld")]
    ∧ parse_llm_response "1 >>> Hi\n  world  " ≠ [("1", "Hi\n  world  ")] := by
  decide

/-- C7 amended: on a non-blank, non-matching line while an ID is active, the
line is appended to the accumulator after stripping leading and trailing
whitespace (interior whitespace kept verbatim). -/
theorem claim7_amended (st : LlmState) (cid : String) (rawLine : List Char)
    (hne : trimChars rawLine ≠ [])
    (hmatch : matchNewBlockChars (trimChars rawLine) = none)
    (hcur : st.2.1 = some cid) :
    llmStep st rawLine = (st.1, st.2.1, st.2.2 ++ [trimChars rawLine]) := by
  obtain ⟨m, ocur, ls⟩ := st
  simp only at hcur
  subst hcur
  simp [llmStep, hmatch, List.isEmpty_iff, hne]

/-- Witness for C7 amended: the line `"  wide  gap  "` is appended as
`"wide  gap"`. -/
theorem claim7_witness :
    llmStep (([], some "1", [['H', 'i']]) : LlmState) "  wide  gap  ".data =
      ([], some "1", [['H', 'i']] ++ [trimChars "  wide  gap  ".data]) :=
  claim7_amended ([], some "1", [['H', 'i']]) "1" "  wide  gap  ".data
    (by decide) (by decide) rfl

/-- C8 counterexample: the timecode line `" 00:00 "` is stored STRIPPED as
`"00:00"`, not character-for-character identical to the input line. -/
theorem claim8_counterexample :
    (parse_srt "1\n 00:00 \nHi").map (fun s => s.timestamp) = ["00:00"]
    ∧ ("00:00" : String) ≠ " 00:00 " := by
  decide

theorem digit_not_ws (c : Char) (h : c.isDigit = true) : c.isWhitespace = false := by
  cases hval : c.isWhitespace
  · rfl
  · exfalso
    simp [Char.isWhitespace] at hval
    rcases hval with ((h1 | h1) | h1) | h1 <;> (subst h1; revert h; decide)

theorem takeWhile_append_all {α : Type} (p : α → Bool) (xs : List α) (y : α)
    (ys : List α) (hxs : ∀ x ∈ xs, p x = true) (hy : p y = false) :
    (xs ++ y :: ys).takeWhile p = xs := by
  induction xs with
  | nil => simp [List.takeWhile, hy]
  | cons a t ih =>
    have ha : p a = true := hxs a (by simp)
    simp only [List.cons_append, List.takeWhile_cons, ha, if_true]
    rw [ih (fun x hx => hxs x (by simp [hx]))]

theorem dropWhile_append_all {α : Type} (p : α → Bool) (xs : List α) (y : α)
    (ys : List α) (hxs : ∀ x ∈ xs, p x = true) (hy : p y = false) :
    (xs ++ y :: ys).dropWhile p = y :: ys := by
  induction xs with
  | nil => simp [List.dropWhile, hy]
  | cons a t ih =>
    have ha : p a = true := hxs a (by simp)
    simp only [List.cons_append, List.dropWhile_cons, ha, if_true]
    exact ih (fun x hx => hxs x (by simp [hx]))

theorem trimChars_eq_self (cs : List Char)
    (h1 : cs.dropWhile Char.isWhitespace = cs)
    (h2 : cs.reverse.dropWhile Char.isWhitespace = cs.reverse) :
    trimChars cs = cs := by
  simp [trimChars, h1, h2]

theorem splitLines_no_newline (l : List Char) (h : '\n' ∉ l) :
    splitLines l = [l] := by
  induction l with
  | nil => rfl
  | cons c rest ih =>
    have hc : ¬ c = '\n' := fun he => h (by simp [he])
    have hr : '\n' ∉ rest := fun he => h (by simp [he])
    simp only [splitLines, if_neg hc, ih hr]

/-- C10: a reply line consisting of a digit ID, the delimiter and nothing
else parses to an entry mapping that ID to the empty string; the validation
then counts the ID as present (the reply can be accepted as a success), and
the driver writes the empty string into the record instead of falling back
to the source text. -/
theorem claim10_empty_remainder :
    (∀ ds : List Char, ds ≠ [] → (∀ c ∈ ds, c.isDigit = true) →
      parse_llm_response (String.mk (ds ++ [' ', '>', '>', '>'])) =
        [(String.mk ds, "")])
    ∧ attemptLoop ["5"] (fun _ => some "5 >>>") 0 2 = (some [("5", "")], 1)
    ∧ runPipeline "5\n00:01\nYo" 20 2 (fun _ => some "5 >>>") =
        [⟨"5", "00:01", "Yo", ""⟩] := by
  refine ⟨?_, by decide, by decide⟩
  intro ds hne hdig
  obtain ⟨d0, ds', rfl⟩ : ∃ d0 ds', ds = d0 :: ds' := by
    cases ds with
    | nil => exact absurd rfl hne
    | cons a t => exact ⟨a, t, rfl⟩
  have hd0 : Char.isDigit d0 = true := hdig d0 (by simp)
  have h1 : ((d0 :: ds') ++ [' ', '>', '>', '>']).dropWhile Char.isWhitespace =
      (d0 :: ds') ++ [' ', '>', '>', '>'] := by
    simp only [List.cons_append, List.dropWhile_cons, digit_not_ws d0 hd0,
      Bool.false_eq_true, if_false]
  have h2 : ((d0 :: ds') ++ [' ', '>', '>', '>']).reverse.dropWhile Char.isWhitespace =
      ((d0 :: ds') ++ [' ', '>', '>', '>']).reverse := by
    rw [List.reverse_append]
    simp only [List.reverse_cons, List.reverse_nil, List.nil_append, List.cons_append,
      List.append_assoc]
    rfl
  have htrim : trimChars ((d0 :: ds') ++ [' ', '>', '>', '>']) =
      (d0 :: ds') ++ [' ', '>', '>', '>'] :=
    trimChars_eq_self _ h1 h2
  have hnl : '\n' ∉ (d0 :: ds') ++ [' ', '>', '>', '>'] := by
    intro hmem
    rcases List.mem_append.mp hmem with hm | hm
    · have := hdig '\n' hm
      revert this; decide
    · revert hm; decide
  have hsplit : splitLines ((d0 :: ds') ++ [' ', '>', '>', '>']) =
      [(d0 :: ds') ++ [' ', '>', '>', '>']] :=
    splitLines_no_newline _ hnl
  have ht : ((d0 :: ds') ++ [' ', '>', '>', '>']).takeWhile Char.isDigit = d0 :: ds' :=
    takeWhile_append_all _ _ _ _ hdig (by decide)
  have hdp : ((d0 :: ds') ++ [' ', '>', '>', '>']).dropWhile Char.isDigit =
      [' ', '>', '>', '>'] :=
    dropWhile_append_all _ _ _ _ hdig (by decide)
  have hmatch : matchNewBlockChars ((d0 :: ds') ++ [' ', '>', '>', '>']) =
      some (d0 :: ds', []) := by
    simp only [matchNewBlockChars, ht, hdp]
    rfl
  show parse_llm_response (String.mk ((d0 :: ds') ++ [' ', '>', '>', '>'])) =
    [(String.mk (d0 :: ds'), "")]
  have hstep : llmStep ([], none, []) ((d0 :: ds') ++ [' ', '>', '>', '>']) =
      ([], some (String.mk (d0 :: ds')), []) := by
    simp only [llmStep, htrim, hmatch]
    rfl
  simp only [parse_llm_response]
  rw [htrim, hsplit]
  simp only [List.foldl]
  rw [hstep]
  rfl

/-- Witness for C10: the reply line `"5 >>>"` yields the entry `("5", "")`. -/
theorem claim10_witness :
    parse_llm_response (String.mk (['5'] ++ [' ', '>', '>', '>'])) =
      [(String.mk ['5'], "")] :=
  claim10_empty_remainder.1 ['5'] (by decide) (by decide)

theorem processAux_depth_le (retries : Nat) (oracle : Nat → Option String) :
    ∀ fuel (batch : List SubtitleRecord) (ctr depth : Nat), batch.length < fuel →
      (processAux retries oracle fuel batch ctr depth).depth ≤
        depth + Nat.clog 2 batch.length := by
  intro fuel
  induction fuel with
  | zero => intro batch ctr depth h; omega
  | succ f ih =>
    intro batch ctr depth h
    simp only [processAux]
    cases hA : attemptLoop (batch.map fun s => s.index) oracle ctr retries with
    | mk om c =>
      cases om with
      | some m => simp
      | none =>
        by_cases hle : batch.length ≤ 1
        · simp [hle]
        · simp only [if_neg hle]
          have h2 : 2 ≤ batch.length := by omega
          have htk : (batch.take (batch.length / 2)).length = batch.length / 2 := by
            simp [List.length_take]; omega
          have hdp : (batch.drop (batch.length / 2)).length =
              batch.length - batch.length / 2 := by
            simp [List.length_drop]
          have hkey : Nat.clog 2 batch.length =
              Nat.clog 2 ((batch.length + 2 - 1) / 2) + 1 :=
            Nat.clog_of_two_le (by norm_num) h2
          have hl := ih (batch.take (batch.length / 2)) c (depth + 1)
            (by rw [htk]; omega)
          have hr := ih (batch.drop (batch.length / 2))
            (processAux retries oracle f (batch.take (batch.length / 2)) c (depth + 1)).next
            (depth + 1) (by rw [hdp]; omega)
          have hlb : Nat.clog 2 (batch.length / 2) ≤
              Nat.clog 2 ((batch.length + 2 - 1) / 2) :=
            Nat.clog_mono_right 2 (by omega)
          have hrb : Nat.clog 2 (batch.length - batch.length / 2) ≤
              Nat.clog 2 ((batch.length + 2 - 1) / 2) :=
            Nat.clog_mono_right 2 (by omega)
          rw [htk] at hl
          rw [hdp] at hr
          refine max_le ?_ ?_
          · omega
          · omega

/-- C9: the recursion depth of the translator on a batch of n records is
bounded by `⌈log₂ n⌉` (`Nat.clog 2 n`); a batch of exactly one record never
recurses (the maximal depth reached equals the initial depth); each split
takes halves of exactly `⌊n/2⌋` and `⌈n/2⌉ = n - ⌊n/2⌋` records. -/
theorem claim9_depth_bound :
    (∀ (batch : List SubtitleRecord) (retries : Nat) (oracle : Nat → Option String)
        (ctr depth : Nat),
        (process_batch_recursive batch retries oracle ctr depth).depth ≤
          depth + Nat.clog 2 batch.length)
    ∧ (∀ (batch : List SubtitleRecord) (retries : Nat) (oracle : Nat → Option String)
        (ctr depth : Nat), batch.length = 1 →
        (process_batch_recursive batch retries oracle ctr depth).depth = depth)
    ∧ (∀ batch : List SubtitleRecord, 2 ≤ batch.length →
        (batch.take (batch.length / 2)).length = batch.length / 2
        ∧ (batch.drop (batch.length / 2)).length = batch.length - batch.length / 2) := by
  refine ⟨?_, ?_, ?_⟩
  · intro batch retries oracle ctr depth
    exact processAux_depth_le retries oracle (batch.length + 1) batch ctr depth
      (by omega)
  · intro batch retries oracle ctr depth hlen
    simp only [process_batch_recursive, processAux]
    cases hA : attemptLoop (batch.map fun s => s.index) oracle ctr retries with
    | mk om c =>
      cases om with
      | some m => rfl
      | none =>
        have h1 : batch.length ≤ 1 := by omega
        simp [h1]
  · intro batch hlen
    constructor
    · simp [List.length_take]; omega
    · simp [List.length_drop]

/-- Witness for C9: a singleton batch under a failing backend reaches depth
0 when started at depth 0. -/
theorem claim9_witness :
    (process_batch_recursive [⟨"9", "t", "x", ""⟩] 2 (fun _ => none) 0 0).depth = 0 :=
  claim9_depth_bound.2.1 [⟨"9", "t", "x", ""⟩] 2 (fun _ => none) 0 0 (by decide)

theorem intercalate_cons_two {α : Type} (sep : List α) (x y : List α)
    (t : List (List α)) :
    List.intercalate sep (x :: y :: t) = x ++ sep ++ List.intercalate sep (y :: t) := by
  simp [List.intercalate, List.intersperse]

theorem intercalate_ne_nil_left {α : Type} (sep : List α) (x : List α)
    (xs : List (List α)) (hx : x ≠ []) : List.intercalate sep (x :: xs) ≠ [] := by
  cases xs with
  | nil => simpa [List.intercalate] using hx
  | cons y t =>
    rw [intercalate_cons_two]
    simp only [ne_eq, List.append_assoc, List.append_eq_nil]
    intro h
    exact hx h.1

theorem mem_mapInsert (m : TranslationMap) (k v : String) (q : String × String)
    (h : q ∈ mapInsert m k v) : q ∈ m ∨ q = (k, v) := by
  unfold mapInsert at h
  by_cases hc : m.any (fun p => p.1 == k)
  · rw [if_pos hc] at h
    obtain ⟨p, hp, he⟩ := List.mem_map.mp h
    by_cases hpk : p.1 == k
    · right; rw [if_pos hpk] at he; exact he.symm
    · left; rw [if_neg hpk] at he; rw [← he]; exact hp
  · rw [if_neg hc] at h
    rcases List.mem_append.mp h with hm | hm
    · exact Or.inl hm
    · right; simpa using hm

theorem mem_mapUnion (l r : TranslationMap) (q : String × String)
    (h : q ∈ mapUnion l r) : q ∈ l ∨ q ∈ r := by
  unfold mapUnion at h
  induction r generalizing l with
  | nil => exact Or.inl h
  | cons p t ih =>
    simp only [List.foldl] at h
    rcases ih (mapInsert l p.1 p.2) h with hm | hm
    · rcases mem_mapInsert l p.1 p.2 q hm with hm2 | hm2
      · exact Or.inl hm2
      · right; simp [hm2]
    · right; exact List.mem_cons_of_mem p hm

theorem attemptLoop_some_parse (batchIds : List String)
    (oracle : Nat → Option String) :
    ∀ retries ctr (m : TranslationMap) (c : Nat),
      attemptLoop batchIds oracle ctr retries = (some m, c) →
      ∃ j r, oracle j = some r ∧ m = parse_llm_response r := by
  intro retries
  induction retries with
  | zero => intro ctr m c h; simp [attemptLoop] at h
  | succ k ih =>
    intro ctr m c h
    simp only [attemptLoop] at h
    cases ho : oracle ctr with
    | none => rw [ho] at h; exact ih _ _ _ h
    | some reply =>
      rw [ho] at h
      simp only at h
      by_cases hm : (batchIds.filter
          (fun bid => !(mapContains (parse_llm_response reply) bid))).isEmpty
      · rw [if_pos hm] at h
        have hmap : parse_llm_response reply = m := by
          have := congrArg Prod.fst h
          simpa using this
        exact ⟨ctr, reply, ho, hmap.symm⟩
      · rw [if_neg hm] at h
        exact ih _ _ _ h

theorem processAux_map_mem (retries : Nat) (oracle : Nat → Option String) :
    ∀ fuel (batch : List SubtitleRecord) (ctr depth : Nat) (q : String × String),
      q ∈ (processAux retries oracle fuel batch ctr depth).map →
      ∃ j r, oracle j = some r ∧ q ∈ parse_llm_response r := by
  intro fuel
  induction fuel with
  | zero => intro batch ctr depth q h; simp [processAux] at h
  | succ f ih =>
    intro batch ctr depth q h
    simp only [processAux] at h
    cases hA : attemptLoop (batch.map fun s => s.index) oracle ctr retries with
    | mk om c =>
      rw [hA] at h
      cases om with
      | some m =>
        obtain ⟨j, r, hj, hm⟩ :=
          attemptLoop_some_parse (batch.map fun s => s.index) oracle retries ctr m c hA
        exact ⟨j, r, hj, hm ▸ h⟩
      | none =>
        simp only at h
        by_cases hle : batch.length ≤ 1
        · rw [if_pos hle] at h; simp at h
        · rw [if_neg hle] at h
          simp only at h
          rcases mem_mapUnion _ _ q h with hm | hm
          · exact ih _ _ _ _ hm
          · exact ih _ _ _ _ hm

theorem chunkAux_subset (size : Nat) :
    ∀ fuel (l : List SubtitleRecord) (b : List SubtitleRecord),
      b ∈ chunkAux size fuel l → ∀ x ∈ b, x ∈ l := by
  intro fuel
  induction fuel with
  | zero => intro l b h; simp [chunkAux] at h
  | succ f ih =>
    intro l b h x hx
    simp only [chunkAux] at h
    by_cases he : l.isEmpty
    · rw [if_pos he] at h; simp at h
    · rw [if_neg he] at h
      rcases List.mem_cons.mp h with hm | hm
      · exact List.take_subset size l (hm ▸ hx)
      · exact List.drop_subset size l (ih (l.drop size) b hm x hx)

theorem chunk_subset (size : Nat) (l : List SubtitleRecord)
    (b : List SubtitleRecord) (h : b ∈ chunk size l) : ∀ x ∈ b, x ∈ l := by
  unfold chunk at h
  by_cases hz : size = 0
  · rw [if_pos hz] at h; simp at h
  · rw [if_neg hz] at h; exact chunkAux_subset size l.length l b h

theorem groupBlocksAux_lines_ne (ls : List (List Char)) :
    (∀ l ∈ (groupBlocksAux ls).1, l ≠ []) ∧
    (∀ b ∈ (groupBlocksAux ls).2, ∀ l ∈ b, l ≠ []) := by
  induction ls with
  | nil => simp [groupBlocksAux]
  | cons l rest ih =>
    simp only [groupBlocksAux]
    by_cases he : l.isEmpty
    · rw [if_pos he]
      refine ⟨by simp, ?_⟩
      by_cases hp : (groupBlocksAux rest).1.isEmpty
      · simpa [hp] using ih.2
      · simp only [hp, Bool.false_eq_true, if_false]
        intro b hb
        rcases List.mem_cons.mp hb with hm | hm
        · exact hm ▸ ih.1
        · exact ih.2 b hm
    · rw [if_neg he]
      refine ⟨?_, ih.2⟩
      intro x hx
      rcases List.mem_cons.mp hx with hm | hm
      · exact hm ▸ List.isEmpty_eq_false.mp (Bool.not_eq_true _ ▸ (by simpa using he))
      · exact ih.1 x hm

theorem groupBlocks_lines_ne (ls : List (List Char)) :
    ∀ b ∈ groupBlocks ls, ∀ l ∈ b, l ≠ [] := by
  unfold groupBlocks
  by_cases hp : (groupBlocksAux ls).1.isEmpty
  · simpa [hp] using (groupBlocksAux_lines_ne ls).2
  · simp only [hp, Bool.false_eq_true, if_false]
    intro b hb
    rcases List.mem_cons.mp hb with hm | hm
    · exact hm ▸ (groupBlocksAux_lines_ne ls).1
    · exact (groupBlocksAux_lines_ne ls).2 b hm

theorem string_mk_ne_empty (l : List Char) (h : l ≠ []) : String.mk l ≠ "" := by
  intro he
  exact h (congrArg String.data he)

theorem parse_srt_text_ne (content : String) :
    ∀ s ∈ parse_srt content, s.text ≠ "" := by
  intro s hs
  unfold parse_srt at hs
  obtain ⟨b, hb, hpb⟩ := List.mem_filterMap.mp hs
  unfold parseBlock at hpb
  by_cases h3 : 3 ≤ b.length
  · rw [if_pos h3] at hpb
    have hs' := Option.some.inj hpb
    have hdrop : b.drop 2 ≠ [] := by
      rw [ne_eq, List.drop_eq_nil_iff_le]
      omega
    obtain ⟨x, xs, hx⟩ := List.exists_cons_of_ne_nil hdrop
    have hxb : x ∈ b := List.drop_subset 2 b (hx ▸ List.mem_cons_self x xs)
    have hxne : x ≠ [] := groupBlocks_lines_ne _ b hb x hxb
    have : s.text = String.mk (List.intercalate ['\n'] (b.drop 2)) := by
      rw [← hs']
    rw [this, hx]
    exact string_mk_ne_empty _ (intercalate_ne_nil_left ['\n'] x xs hxne)
  · rw [if_neg h3] at hpb
    exact absurd hpb (by simp)

theorem applyMap_mem (m : TranslationMap) (batch : List SubtitleRecord)
    (s' : SubtitleRecord) (h : s' ∈ applyMapToBatch m batch) :
    ∃ s ∈ batch, s' = setFallback s
      ∨ ∃ v, (s.index, v) ∈ m ∧ s' = { s with translated_text := v } := by
  unfold applyMapToBatch at h
  obtain ⟨s, hsb, he⟩ := List.mem_map.mp h
  refine ⟨s, hsb, ?_⟩
  by_cases hm : m.isEmpty
  · left; rw [if_pos hm] at he; rw [← he]; rfl
  · rw [if_neg hm] at he
    cases hl : mapLookup m s.index with
    | none => left; rw [hl] at he; rw [← he]; rfl
    | some v =>
      right
      refine ⟨v, ?_, by rw [hl] at he; exact he.symm⟩
      unfold mapLookup at hl
      cases hf : m.find? (fun p => p.1 == s.index) with
      | none => rw [hf] at hl; simp at hl
      | some p =>
        rw [hf] at hl
        have hv : p.2 = v := by simpa using hl
        have hb :=
          @List.find?_some (String × String) (fun q => q.1 == s.index) p m hf
        have hp1 : p.1 = s.index := eq_of_beq (by simpa using hb)
        have hpm : p ∈ m := List.mem_of_find?_eq_some hf
        have hpe : p = (s.index, v) := by
          cases p with
          | mk a b2 =>
            simp only at hp1 hv
            simp [hp1, hv]
        exact hpe ▸ hpm

theorem runBatches_mem (retries : Nat) (oracle : Nat → Option String) :
    ∀ (bs : List (List SubtitleRecord)) (ctr : Nat) (s' : SubtitleRecord),
      s' ∈ runBatches retries oracle bs ctr →
      ∃ b ∈ bs, ∃ c0, s' ∈ applyMapToBatch
        (process_batch_recursive b retries oracle c0 0).map b := by
  intro bs
  induction bs with
  | nil => intro ctr s' h; simp [runBatches] at h
  | cons b rest ih =>
    intro ctr s' h
    simp only [runBatches] at h
    rcases List.mem_append.mp h with hm | hm
    · exact ⟨b, List.mem_cons_self b rest, ctr, hm⟩
    · obtain ⟨b', hb', c0, hmem⟩ := ih _ s' hm
      exact ⟨b', List.mem_cons_of_mem b hb', c0, hmem⟩

/-- C1 amended: provided the backend never delivers an entry whose value is
the empty string, every record after the full pipeline has a non-empty
`translated_text`, and that value is either a value of the validated
translation map returned for the record's batch (with the record's own ID)
or the fallback equal to the record's source text. Without that proviso the
claim fails, see the counterexample: a validated entry may be empty and is
written as-is. -/
theorem claim1_amended (content : String) (batchSize retries : Nat)
    (oracle : Nat → Option String)
    (hv : ∀ j r, oracle j = some r → ∀ p ∈ parse_llm_response r, p.2 ≠ "") :
    ∀ s ∈ runPipeline content batchSize retries oracle,
      s.translated_text ≠ ""
      ∧ (s.translated_text = s.text
         ∨ ∃ j r, oracle j = some r ∧
             (s.index, s.translated_text) ∈ parse_llm_response r) := by
  intro s' hs'
  unfold runPipeline at hs'
  obtain ⟨b, hb, c0, hmem⟩ := runBatches_mem retries oracle _ 0 s' hs'
  obtain ⟨s0, hs0b, hcase⟩ := applyMap_mem _ b s' hmem
  have hs0parse : s0 ∈ parse_srt content := chunk_subset batchSize _ b hb s0 hs0b
  have htext : s0.text ≠ "" := parse_srt_text_ne content s0 hs0parse
  rcases hcase with hfb | ⟨v, hvm, heq⟩
  · subst hfb
    exact ⟨by simpa [setFallback] using htext, Or.inl rfl⟩
  · rw [process_batch_recursive] at hvm
    obtain ⟨j, r, hj, hpr⟩ :=
      processAux_map_mem retries oracle (b.length + 1) b c0 0 (s0.index, v) hvm
    have hvne : v ≠ "" := hv j r hj (s0.index, v) hpr
    subst heq
    exact ⟨by simpa using hvne, Or.inr ⟨j, r, hj, by simpa using hpr⟩⟩

/-- Witness for C1 amended: with the reply `"1 >>> Hola"` the single output
record carries the non-empty translation `"Hola"`. -/
theorem claim1_witness :
    (⟨"1", "00:00", "Hi", "Hola"⟩ : SubtitleRecord).translated_text ≠ ""
    ∧ ((⟨"1", "00:00", "Hi", "Hola"⟩ : SubtitleRecord).translated_text =
        (⟨"1", "00:00", "Hi", "Hola"⟩ : SubtitleRecord).text
       ∨ ∃ j r, (fun _ : Nat => some "1 >>> Hola") j = some r ∧
           ((⟨"1", "00:00", "Hi", "Hola"⟩ : SubtitleRecord).index,
            (⟨"1", "00:00", "Hi", "Hola"⟩ : SubtitleRecord).translated_text)
             ∈ parse_llm_response r) :=
  claim1_amended "1\n00:00\nHi" 20 2 (fun _ => some "1 >>> Hola")
    (by
      intro j r hr
      have hre : r = "1 >>> Hola" := (Option.some.inj hr).symm
      subst hre
      decide)
    ⟨"1", "00:00", "Hi", "Hola"⟩ (by decide)

theorem intercalate_single {α : Type} (sep : List α) (x : List α) :
    List.intercalate sep [x] = x := by
  simp [List.intercalate, List.intersperse]

theorem intercalate_append_ne {α : Type} (sep : List α) :
    ∀ (xs ys : List (List α)), xs ≠ [] → ys ≠ [] →
      List.intercalate sep (xs ++ ys) =
        List.intercalate sep xs ++ sep ++ List.intercalate sep ys := by
  intro xs
  induction xs with
  | nil => intro ys h; exact absurd rfl h
  | cons x t ih =>
    intro ys hx hy
    cases t with
    | nil =>
      obtain ⟨y, yt, rfl⟩ := List.exists_cons_of_ne_nil hy
      rw [List.singleton_append, intercalate_cons_two, intercalate_single]
    | cons z zs =>
      have ht : (z :: zs : List (List α)) ≠ [] := by simp
      rw [List.cons_append, List.cons_append, intercalate_cons_two sep x z (zs ++ ys)]
      have hih := ih ys ht hy
      rw [List.cons_append] at hih
      rw [hih, intercalate_cons_two sep x z zs]
      simp [List.append_assoc]

theorem splitLines_append_newline (x : List Char) (cs : List Char)
    (h : '\n' ∉ x) : splitLines (x ++ '\n' :: cs) = x :: splitLines cs := by
  induction x with
  | nil => simp [splitLines]
  | cons c t ih =>
    have hc : ¬ c = '\n' := fun he => h (by simp [he])
    have ht : '\n' ∉ t := fun he => h (by simp [he])
    rw [List.cons_append]
    simp only [splitLines, if_neg hc, ih ht]

theorem splitLines_intercalate :
    ∀ ls : List (List Char), ls ≠ [] → (∀ l ∈ ls, '\n' ∉ l) →
      splitLines (List.intercalate ['\n'] ls) = ls := by
  intro ls
  induction ls with
  | nil => intro h; exact absurd rfl h
  | cons x t ih =>
    intro _ hnl
    cases t with
    | nil =>
      rw [intercalate_single]
      exact splitLines_no_newline x (hnl x (by simp))
    | cons y ys =>
      rw [intercalate_cons_two]
      rw [show (x ++ ['\n'] ++ List.intercalate ['\n'] (y :: ys)) =
        x ++ '\n' :: List.intercalate ['\n'] (y :: ys) by simp]
      rw [splitLines_append_newline x _ (hnl x (by simp))]
      rw [ih (by simp) (fun l hl => hnl l (by simp [hl]))]

theorem mem_intercalate {α : Type} (sep : List α) :
    ∀ (xs : List (List α)) (a : α), a ∈ List.intercalate sep xs →
      a ∈ sep ∨ ∃ x ∈ xs, a ∈ x := by
  intro xs
  induction xs with
  | nil => intro a h; simp [List.intercalate] at h
  | cons x t ih =>
    intro a h
    cases t with
    | nil =>
      rw [intercalate_single] at h
      exact Or.inr ⟨x, by simp, h⟩
    | cons y ys =>
      rw [intercalate_cons_two] at h
      rcases List.mem_append.mp h with hm | hm
      · rcases List.mem_append.mp hm with hm2 | hm2
        · exact Or.inr ⟨x, by simp, hm2⟩
        · exact Or.inl hm2
      · rcases ih a hm with hs | ⟨b, hb, hab⟩
        · exact Or.inl hs
        · exact Or.inr ⟨b, by simp [hb], hab⟩

theorem groupBlocksAux_front (b : List (List Char)) (ls : List (List Char))
    (h : ∀ l ∈ b, l ≠ []) :
    groupBlocksAux (b ++ ls) =
      (b ++ (groupBlocksAux ls).1, (groupBlocksAux ls).2) := by
  induction b with
  | nil => simp
  | cons l t ih =>
    have hl : l.isEmpty = false := by
      rw [List.isEmpty_eq_false]
      exact h l (by simp)
    rw [List.cons_append]
    simp only [groupBlocksAux, hl, Bool.false_eq_true, if_false]
    rw [ih (fun x hx => h x (by simp [hx]))]
    simp

theorem groupBlocksAux_intercalate :
    ∀ bls : List (List (List Char)), bls ≠ [] → (∀ b ∈ bls, b ≠ []) →
      (∀ b ∈ bls, ∀ l ∈ b, l ≠ []) →
      groupBlocksAux (List.intercalate [[]] bls) = (bls.headD [], bls.tail) := by
  intro bls
  induction bls with
  | nil => intro h; exact absurd rfl h
  | cons b t ih =>
    intro _ hb hl
    cases t with
    | nil =>
      rw [intercalate_single]
      have := groupBlocksAux_front b [] (hl b (by simp))
      simpa [groupBlocksAux] using this
    | cons b2 t2 =>
      rw [intercalate_cons_two]
      rw [show (b ++ [[]] ++ List.intercalate [[]] (b2 :: t2)) =
        b ++ ([] :: List.intercalate [[]] (b2 :: t2)) by simp]
      rw [groupBlocksAux_front b _ (hl b (by simp))]
      have hrec := ih (by simp) (fun x hx => hb x (by simp [hx]))
        (fun x hx => hl x (by simp [hx]))
      simp only [groupBlocksAux, List.isEmpty_nil, if_true, hrec]
      have hb2 : b2 ≠ [] := hb b2 (by simp)
      have : (b2 :: t2 : List (List (List Char))).headD [] = b2 := rfl
      rw [this]
      have hb2e : b2.isEmpty = false := by
        rw [List.isEmpty_eq_false]; exact hb2
      simp [hb2e]

theorem groupBlocks_intercalate (bls : List (List (List Char)))
    (h0 : bls ≠ []) (hb : ∀ b ∈ bls, b ≠ [])
    (hl : ∀ b ∈ bls, ∀ l ∈ b, l ≠ []) :
    groupBlocks (List.intercalate [[]] bls) = bls := by
  unfold groupBlocks
  rw [groupBlocksAux_intercalate bls h0 hb hl]
  obtain ⟨b, t, rfl⟩ := List.exists_cons_of_ne_nil h0
  have hbe : b.isEmpty = false := by
    rw [List.isEmpty_eq_false]; exact hb b (by simp)
  simp [hbe]

theorem glue_ne_parts (bls : List (List (List Char)))
    (hb : ∀ b ∈ bls, b ≠ []) :
    List.intercalate [[]] bls = [] → bls = [] := by
  intro h
  cases bls with
  | nil => rfl
  | cons b t =>
    exfalso
    cases t with
    | nil =>
      rw [intercalate_single] at h
      exact hb b (by simp) h
    | cons b2 t2 =>
      rw [intercalate_cons_two] at h
      rcases List.append_eq_nil.mp (List.append_eq_nil.mp h).1 with ⟨h1, _⟩
      exact hb b (by simp) h1

theorem parse_srt_of_trim (bls : List (List (List Char))) (cs : List Char)
    (hb : ∀ b ∈ bls, b ≠ [])
    (hl : ∀ b ∈ bls, ∀ l ∈ b, l ≠ [] ∧ '\n' ∉ l)
    (htr : trimChars cs = glueChars bls) :
    parse_srt (String.mk cs) = bls.filterMap parseBlock := by
  cases hbls : bls with
  | nil =>
    subst hbls
    unfold parse_srt
    rw [show (String.mk cs).data = cs from rfl, htr]
    rfl
  | cons b0 t0 =>
    subst hbls
    unfold parse_srt
    rw [show (String.mk cs).data = cs from rfl]
    rw [htr]
    unfold glueChars
    have hinner_ne : List.intercalate [[]] (b0 :: t0) ≠ [] := by
      intro h
      exact absurd (glue_ne_parts _ hb h) (by simp)
    have hinner_nl : ∀ l ∈ List.intercalate [[]] (b0 :: t0), '\n' ∉ l := by
      intro l hm
      rcases mem_intercalate [[]] _ l hm with hs | ⟨b, hbm, hlb⟩
      · simp only [List.mem_singleton] at hs
        subst hs
        simp
      · exact (hl b hbm l hlb).2
    rw [splitLines_intercalate _ hinner_ne hinner_nl]
    rw [groupBlocks_intercalate _ (by simp) hb (fun b hbm l hlb => (hl b hbm l hlb).1)]

theorem dropWhile_length_le {α : Type} (p : α → Bool) (l : List α) :
    (l.dropWhile p).length ≤ l.length := by
  induction l with
  | nil => simp
  | cons a t ih =>
    rw [List.dropWhile_cons]
    by_cases hp : p a
    · rw [if_pos hp]; exact Nat.le_succ_of_le ih
    · rw [if_neg hp]

theorem head_false_of_dropWhile_self {α : Type} (p : α → Bool) (c : α)
    (t : List α) (h : List.dropWhile p (c :: t) = c :: t) : p c = false := by
  by_cases hp : p c
  · exfalso
    rw [List.dropWhile_cons, if_pos hp] at h
    have := dropWhile_length_le p t
    rw [h] at this
    simp at this
  · simpa using hp

theorem dropWhile_eq_self_of_length {α : Type} (p : α → Bool) (l : List α)
    (h : (l.dropWhile p).length = l.length) : l.dropWhile p = l := by
  cases l with
  | nil => rfl
  | cons a t =>
    rw [List.dropWhile_cons]
    by_cases hp : p a
    · exfalso
      rw [List.dropWhile_cons, if_pos hp] at h
      have := dropWhile_length_le p t
      simp only [List.length_cons] at h
      omega
    · rw [if_neg hp]

theorem trim_stable_parts (l : List Char) (h : trimChars l = l) :
    l.dropWhile Char.isWhitespace = l ∧
    l.reverse.dropWhile Char.isWhitespace = l.reverse := by
  unfold trimChars at h
  have hlen1 : (l.dropWhile Char.isWhitespace).length ≤ l.length :=
    dropWhile_length_le _ l
  have hlen2 :
      (((l.dropWhile Char.isWhitespace).reverse.dropWhile Char.isWhitespace)).length ≤
        (l.dropWhile Char.isWhitespace).length := by
    have := dropWhile_length_le Char.isWhitespace (l.dropWhile Char.isWhitespace).reverse
    simpa using this
  have hlh := congrArg List.length h
  simp only [List.length_reverse] at hlh
  have he1 : l.dropWhile Char.isWhitespace = l := by
    apply dropWhile_eq_self_of_length
    omega
  refine ⟨he1, ?_⟩
  rw [he1] at h
  have : (l.reverse.dropWhile Char.isWhitespace).reverse.reverse = l.reverse := by
    rw [h]
  simpa using this

theorem dropWhile_append_self {α : Type} (p : α → Bool) (A B : List α)
    (hA : A ≠ []) (h : A.dropWhile p = A) :
    (A ++ B).dropWhile p = A ++ B := by
  obtain ⟨c, t, rfl⟩ := List.exists_cons_of_ne_nil hA
  have hc : p c = false := head_false_of_dropWhile_self p c t h
  rw [List.cons_append, List.dropWhile_cons, hc]
  simp

theorem dropWhile_rev_append (A B : List Char)
    (hB : B ≠ []) (h : B.reverse.dropWhile Char.isWhitespace = B.reverse) :
    (A ++ B).reverse.dropWhile Char.isWhitespace = (A ++ B).reverse := by
  rw [List.reverse_append]
  exact dropWhile_append_self Char.isWhitespace B.reverse A.reverse
    (by simpa [List.reverse_eq_nil_iff] using hB) h

theorem trim_append_nn (X : List Char) (hne : X ≠ [])
    (hhead : X.dropWhile Char.isWhitespace = X)
    (hlast : X.reverse.dropWhile Char.isWhitespace = X.reverse) :
    trimChars (X ++ ['\n', '\n']) = X := by
  unfold trimChars
  rw [dropWhile_append_self Char.isWhitespace X ['\n', '\n'] hne hhead]
  rw [List.reverse_append]
  rw [show (['\n', '\n'] : List Char).reverse = ['\n', '\n'] from rfl]
  rw [show (['\n', '\n'] ++ X.reverse : List Char).dropWhile Char.isWhitespace =
    X.reverse.dropWhile Char.isWhitespace from rfl]
  rw [hlast]
  simp

theorem glue_head (l0 : List Char) (ls : List (List Char))
    (rest : List (List (List Char))) :
    ∃ t, glueChars ((l0 :: ls) :: rest) = l0 ++ t := by
  unfold glueChars
  cases rest with
  | nil =>
    rw [intercalate_single]
    cases ls with
    | nil => exact ⟨[], by rw [intercalate_single]; simp⟩
    | cons z zs =>
      exact ⟨['\n'] ++ List.intercalate ['\n'] (z :: zs), by
        rw [intercalate_cons_two]; simp [List.append_assoc]⟩
  | cons r rs =>
    rw [intercalate_cons_two]
    rw [show ((l0 :: ls) ++ [[]] ++ List.intercalate [[]] (r :: rs)) =
      l0 :: (ls ++ [[]] ++ List.intercalate [[]] (r :: rs)) by simp]
    cases hz : ls ++ [[]] ++ List.intercalate [[]] (r :: rs) with
    | nil => simp at hz
    | cons z zs =>
      exact ⟨['\n'] ++ List.intercalate ['\n'] (z :: zs), by
        rw [intercalate_cons_two]; simp [List.append_assoc]⟩

theorem glue_cons_two (nb : List (List Char)) (rest : List (List (List Char)))
    (hr : rest ≠ []) (hnb : nb ≠ []) (hb : ∀ b ∈ rest, b ≠ []) :
    glueChars (nb :: rest) =
      List.intercalate ['\n'] nb ++ '\n' :: '\n' :: glueChars rest := by
  obtain ⟨r1, rs, rfl⟩ := List.exists_cons_of_ne_nil hr
  unfold glueChars
  rw [intercalate_cons_two]
  have hinner_ne : List.intercalate [[]] (r1 :: rs) ≠ [] := by
    intro h
    exact absurd (glue_ne_parts _ hb h) (by simp)
  obtain ⟨z, zs, hz⟩ := List.exists_cons_of_ne_nil hinner_ne
  rw [hz]
  rw [show (nb ++ [[]] ++ z :: zs) = nb ++ (([] : List Char) :: z :: zs) by simp]
  rw [intercalate_append_ne ['\n'] nb ([] :: z :: zs) hnb (by simp)]
  rw [intercalate_cons_two ['\n'] [] z zs]
  simp

theorem glue_ne_nil (bls : List (List (List Char))) (h0 : bls ≠ [])
    (hb : ∀ b ∈ bls, b ≠ []) (hl : ∀ b ∈ bls, ∀ l ∈ b, l ≠ []) :
    glueChars bls ≠ [] := by
  obtain ⟨b, t, rfl⟩ := List.exists_cons_of_ne_nil h0
  obtain ⟨l0, ls, rfl⟩ := List.exists_cons_of_ne_nil (hb b (by simp))
  obtain ⟨w, hw⟩ := glue_head l0 ls t
  rw [hw]
  have : l0 ≠ [] := hl (l0 :: ls) (by simp) l0 (by simp)
  simp [this]

theorem inter_last_stable :
    ∀ nb : List (List Char), nb ≠ [] →
      (∀ l ∈ nb, l ≠ [] ∧ l.reverse.dropWhile Char.isWhitespace = l.reverse) →
      (List.intercalate ['\n'] nb).reverse.dropWhile Char.isWhitespace =
        (List.intercalate ['\n'] nb).reverse := by
  intro nb
  induction nb with
  | nil => intro h; exact absurd rfl h
  | cons l t ih =>
    intro _ hc
    cases t with
    | nil =>
      rw [intercalate_single]
      exact (hc l (by simp)).2
    | cons z zs =>
      rw [intercalate_cons_two]
      exact dropWhile_rev_append (l ++ ['\n']) _
        (intercalate_ne_nil_left ['\n'] z zs (hc z (by simp)).1)
        (ih (by simp) (fun x hx => hc x (by simp [hx])))

theorem glue_last_stable :
    ∀ bls : List (List (List Char)), bls ≠ [] → (∀ b ∈ bls, b ≠ []) →
      (∀ b ∈ bls, ∀ l ∈ b,
        l ≠ [] ∧ l.reverse.dropWhile Char.isWhitespace = l.reverse) →
      (glueChars bls).reverse.dropWhile Char.isWhitespace = (glueChars bls).reverse := by
  intro bls
  induction bls with
  | nil => intro h; exact absurd rfl h
  | cons nb t ih =>
    intro _ hb hl
    cases t with
    | nil =>
      show (glueChars [nb]).reverse.dropWhile Char.isWhitespace = (glueChars [nb]).reverse
      unfold glueChars
      rw [intercalate_single]
      exact inter_last_stable nb (hb nb (by simp)) (hl nb (by simp))
    | cons r rs =>
      rw [glue_cons_two nb (r :: rs) (by simp) (hb nb (by simp))
        (fun x hx => hb x (by simp [hx]))]
      rw [show (List.intercalate ['\n'] nb ++ '\n' :: '\n' :: glueChars (r :: rs)) =
        (List.intercalate ['\n'] nb ++ ['\n', '\n']) ++ glueChars (r :: rs) by
          simp [List.append_assoc]]
      exact dropWhile_rev_append _ _
        (glue_ne_nil (r :: rs) (by simp) (fun x hx => hb x (by simp [hx]))
          (fun x hx l hlx => (hl x (by simp [hx]) l hlx).1))
        (ih (by simp) (fun x hx => hb x (by simp [hx]))
          (fun x hx => hl x (by simp [hx])))

theorem glue_head_stable (l0 : List Char) (ls : List (List Char))
    (rest : List (List (List Char))) (h0 : l0 ≠ [])
    (hs : l0.dropWhile Char.isWhitespace = l0) :
    (glueChars ((l0 :: ls) :: rest)).dropWhile Char.isWhitespace =
      glueChars ((l0 :: ls) :: rest) := by
  obtain ⟨w, hw⟩ := glue_head l0 ls rest
  rw [hw]
  exact dropWhile_append_self Char.isWhitespace l0 w h0 hs

theorem glue_trim_stable (bls : List (List (List Char))) (h0 : bls ≠ [])
    (hb : ∀ b ∈ bls, b ≠ [])
    (hl : ∀ b ∈ bls, ∀ l ∈ b, l ≠ [] ∧ trimChars l = l) :
    trimChars (glueChars bls) = glueChars bls := by
  obtain ⟨b, t, rfl⟩ := List.exists_cons_of_ne_nil h0
  obtain ⟨l0, ls, rfl⟩ := List.exists_cons_of_ne_nil (hb b (by simp))
  apply trimChars_eq_self
  · exact glue_head_stable l0 ls t (hl (l0 :: ls) (by simp) l0 (by simp)).1
      (trim_stable_parts l0 (hl (l0 :: ls) (by simp) l0 (by simp)).2).1
  · exact glue_last_stable _ (by simp) hb
      (fun x hx l hlx => ⟨(hl x hx l hlx).1,
        (trim_stable_parts l (hl x hx l hlx).2).2⟩)

theorem digitsOnly_no_nl (x : List Char) : '\n' ∉ digitsOnly x := by
  intro h
  have := (List.mem_filter.mp h).2
  revert this
  decide

theorem digitsOnly_all (x : List Char) : ∀ c ∈ digitsOnly x, c.isDigit = true := by
  intro c hc
  exact (List.mem_filter.mp hc).2

theorem digitsOnly_idem (x : List Char) : digitsOnly (digitsOnly x) = digitsOnly x :=
  List.filter_eq_self.mpr (digitsOnly_all x)

theorem dropWhile_head_false {α : Type} (p : α → Bool) :
    ∀ (l : List α) (c : α) (t : List α), l.dropWhile p = c :: t → p c = false := by
  intro l
  induction l with
  | nil => intro c t h; simp [List.dropWhile] at h
  | cons a r ih =>
    intro c t h
    rw [List.dropWhile_cons] at h
    by_cases hp : p a
    · rw [if_pos hp] at h; exact ih c t h
    · rw [if_neg hp] at h
      injection h with h1 _
      subst h1
      simpa using hp

theorem all_digits_trim_self (x : List Char)
    (hd : ∀ c ∈ x, c.isDigit = true) : trimChars x = x := by
  cases hx : x with
  | nil => rfl
  | cons d t =>
    apply trimChars_eq_self
    · rw [List.dropWhile_cons,
        digit_not_ws d (hd d (by simp [hx]))]
      simp
    · cases hr : (d :: t).reverse with
      | nil => simp at hr
      | cons c u =>
        have hc : c ∈ x := by
          rw [hx, ← List.mem_reverse, hr]
          simp
        rw [List.dropWhile_cons, digit_not_ws c (hd c hc)]
        simp

theorem digitsOnly_trim_self (x : List Char) :
    trimChars (digitsOnly x) = digitsOnly x :=
  all_digits_trim_self _ (digitsOnly_all x)

theorem filterMap_eq_map_of_some {α β : Type} (f : α → Option β) (g : α → β) :
    ∀ l : List α, (∀ a ∈ l, f a = some (g a)) → l.filterMap f = l.map g := by
  intro l
  induction l with
  | nil => intro h; rfl
  | cons a t ih =>
    intro h
    rw [List.filterMap_cons, h a (by simp), List.map_cons,
      ih (fun x hx => h x (by simp [hx]))]

theorem serialize_flatten :
    ∀ bls : List (List (List Char)), bls ≠ [] → (∀ b ∈ bls, b ≠ []) →
      ((bls.map (fun nb => List.intercalate ['\n'] nb ++ ['\n', '\n'])).flatten =
        glueChars bls ++ ['\n', '\n']) := by
  intro bls
  induction bls with
  | nil => intro h; exact absurd rfl h
  | cons nb t ih =>
    intro _ hb
    cases t with
    | nil =>
      show List.intercalate ['\n'] nb ++ ['\n', '\n'] ++ [].flatten = _
      unfold glueChars
      rw [intercalate_single]
      simp
    | cons r rs =>
      rw [List.map_cons, List.flatten_cons]
      rw [ih (by simp) (fun x hx => hb x (by simp [hx]))]
      rw [glue_cons_two nb (r :: rs) (by simp) (hb nb (by simp))
        (fun x hx => hb x (by simp [hx]))]
      simp [List.append_assoc]

theorem blockChars_newBlock (b : List String) (h3 : 3 ≤ b.length) :
    blockChars (setFallback (recordOfBlock b)) =
      List.intercalate ['\n'] (newBlockLines b) ++ ['\n', '\n'] := by
  have hd : (b.drop 2).map String.data ≠ [] := by
    intro h
    have := congrArg List.length h
    simp [List.length_drop] at this
    omega
  obtain ⟨z, zs, hz⟩ := List.exists_cons_of_ne_nil hd
  show (String.mk (digitsOnly (trimChars (b.headD "").data))).data ++
      '\n' :: ((String.mk (trimChars ((b.getD 1 "").data))).data ++
        '\n' :: ((String.mk (List.intercalate ['\n'] ((b.drop 2).map String.data))).data ++
          ['\n', '\n'])) = _
  rw [show ∀ x : List Char, (String.mk x).data = x from fun x => rfl]
  rw [show ∀ x : List Char, (String.mk x).data = x from fun x => rfl]
  rw [show ∀ x : List Char, (String.mk x).data = x from fun x => rfl]
  unfold newBlockLines
  rw [hz, intercalate_cons_two, intercalate_cons_two]
  simp [List.append_assoc]

theorem serialize_records (blocks : List (List String))
    (h3 : ∀ b ∈ blocks, 3 ≤ b.length) :
    (blocks.map recordOfBlock).map setFallback = blocks.map (setFallback ∘ recordOfBlock)
    ∧ (blocks ≠ [] →
      (serialize ((blocks.map recordOfBlock).map setFallback)).data =
        glueChars (blocks.map newBlockLines) ++ ['\n', '\n']) := by
  refine ⟨by rw [List.map_map], ?_⟩
  intro h0
  unfold serialize
  rw [show ∀ x : List Char, (String.mk x).data = x from fun x => rfl]
  rw [List.map_map, List.map_map]
  have hcong : blocks.map ((blockChars ∘ setFallback) ∘ recordOfBlock) =
      blocks.map (fun b => List.intercalate ['\n'] (newBlockLines b) ++ ['\n', '\n']) :=
    List.map_congr_left (fun b hb => blockChars_newBlock b (h3 b hb))
  rw [hcong]
  have hmm : blocks.map (fun b => List.intercalate ['\n'] (newBlockLines b) ++ ['\n', '\n']) =
      (blocks.map newBlockLines).map (fun nb => List.intercalate ['\n'] nb ++ ['\n', '\n']) := by
    rw [List.map_map]
    exact List.map_congr_left (fun b hb => rfl)
  rw [hmm]
  exact serialize_flatten (blocks.map newBlockLines)
    (by simpa [List.map_eq_nil_iff] using h0)
    (by intro nb hnb; obtain ⟨b, _, rfl⟩ := List.mem_map.mp hnb; simp [newBlockLines])

theorem parseBlock_map_data (b : List String) (h3 : 3 ≤ b.length) :
    parseBlock (b.map String.data) = some (recordOfBlock b) := by
  obtain ⟨x, b1, rfl⟩ : ∃ x b1, b = x :: b1 := by
    cases b with
    | nil => simp at h3
    | cons x b1 => exact ⟨x, b1, rfl⟩
  obtain ⟨y, b2, rfl⟩ : ∃ y b2, b1 = y :: b2 := by
    cases b1 with
    | nil => simp at h3
    | cons y b2 => exact ⟨y, b2, rfl⟩
  unfold parseBlock recordOfBlock
  rw [if_pos (by simpa using h3)]
  rfl

theorem parseBlock_newBlockLines (b : List String) (h3 : 3 ≤ b.length)
    (hts : trimChars ((b.getD 1 "").data) = (b.getD 1 "").data) :
    parseBlock (newBlockLines b) = some (recordOfBlock b) := by
  unfold parseBlock newBlockLines recordOfBlock
  rw [if_pos (by simp [List.length_drop]; omega)]
  rw [List.headD_cons]
  rw [show ((digitsOnly (trimChars (b.headD "").data)
      :: trimChars ((b.getD 1 "").data) :: (b.drop 2).map String.data).getD 1 []) =
    trimChars ((b.getD 1 "").data) from rfl]
  rw [show ((digitsOnly (trimChars (b.headD "").data)
      :: trimChars ((b.getD 1 "").data) :: (b.drop 2).map String.data).drop 2) =
    (b.drop 2).map String.data from rfl]
  rw [digitsOnly_trim_self, digitsOnly_idem, hts, hts]

theorem getD1_mem (b : List String) (h : 2 ≤ b.length) : b.getD 1 "" ∈ b := by
  obtain ⟨x, b1, rfl⟩ : ∃ x b1, b = x :: b1 := by
    cases b with
    | nil => simp at h
    | cons x b1 => exact ⟨x, b1, rfl⟩
  obtain ⟨y, b2, rfl⟩ : ∃ y b2, b1 = y :: b2 := by
    cases b1 with
    | nil => simp at h
    | cons y b2 => exact ⟨y, b2, rfl⟩
  simp [List.getD]

theorem newBlockLines_conds (blocks : List (List String))
    (h3 : ∀ b ∈ blocks, 3 ≤ b.length)
    (hline : ∀ b ∈ blocks, ∀ l ∈ b,
      l.data ≠ [] ∧ '\n' ∉ l.data ∧ trimChars l.data = l.data)
    (hdig : ∀ b ∈ blocks, digitsOnly (trimChars ((b.headD "").data)) ≠ []) :
    ∀ nb ∈ blocks.map newBlockLines, ∀ l ∈ nb,
      l ≠ [] ∧ '\n' ∉ l ∧ trimChars l = l := by
  intro nb hnb l hl
  obtain ⟨b, hbm, rfl⟩ := List.mem_map.mp hnb
  unfold newBlockLines at hl
  rcases List.mem_cons.mp hl with h1 | hl2
  · subst h1
    exact ⟨hdig b hbm, digitsOnly_no_nl _, digitsOnly_trim_self _⟩
  · rcases List.mem_cons.mp hl2 with h2 | hl3
    · subst h2
      have hcond := hline b hbm _ (getD1_mem b (by have := h3 b hbm; omega))
      rw [hcond.2.2]
      exact hcond
    · obtain ⟨s, hsm, rfl⟩ := List.mem_map.mp hl3
      exact hline b hbm s (List.drop_subset 2 b hsm)

/-- C5 counterexample: the input `"X\n00:00\nHi"` is a well-formed single
block of 3 lines and parses to one record, but its index line holds no
digits, so the record's ID is `""`; serializing and re-parsing yields an
EMPTY record list (the serialized block starts with a blank line and is
dropped), so the block structure is NOT reproduced. -/
theorem claim5_counterexample :
    (parse_srt "X\n00:00\nHi").length = 1
    ∧ parse_srt (serialize ((parse_srt "X\n00:00\nHi").map setFallback)) = [] := by
  decide

/-- C5 amended: for every input assembled from N blocks of at least 3 lines
each, where every line is non-blank with no surrounding whitespace and every
block's index line contains at least one digit, the parser produces exactly
the N records in order, and serializing those records with `translated_text`
set to the source text re-parses to exactly the same records. -/
theorem claim5_roundtrip (blocks : List (List String))
    (h3 : ∀ b ∈ blocks, 3 ≤ b.length)
    (hline : ∀ b ∈ blocks, ∀ l ∈ b,
      l.data ≠ [] ∧ '\n' ∉ l.data ∧ trimChars l.data = l.data)
    (hdig : ∀ b ∈ blocks, digitsOnly (trimChars ((b.headD "").data)) ≠ []) :
    parse_srt (String.mk (glueChars (blocks.map (fun b => b.map String.data)))) =
      blocks.map recordOfBlock
    ∧ parse_srt (serialize
        ((parse_srt (String.mk (glueChars
          (blocks.map (fun b => b.map String.data))))).map setFallback)) =
      parse_srt (String.mk (glueChars (blocks.map (fun b => b.map String.data)))) := by
  have hbls_b : ∀ bb ∈ blocks.map (fun b => b.map String.data), bb ≠ [] := by
    intro bb hbb
    obtain ⟨b, hbm, rfl⟩ := List.mem_map.mp hbb
    have hbne : b ≠ [] := by
      intro h
      subst h
      simpa using h3 [] hbm
    simpa [List.map_eq_nil_iff] using hbne
  have hbls_l : ∀ bb ∈ blocks.map (fun b => b.map String.data),
      ∀ l ∈ bb, l ≠ [] ∧ '\n' ∉ l := by
    intro bb hbb l hlm
    obtain ⟨b, hbm, rfl⟩ := List.mem_map.mp hbb
    obtain ⟨s, hsm, rfl⟩ := List.mem_map.mp hlm
    exact ⟨(hline b hbm s hsm).1, (hline b hbm s hsm).2.1⟩
  have hbls_t : ∀ bb ∈ blocks.map (fun b => b.map String.data),
      ∀ l ∈ bb, l ≠ [] ∧ trimChars l = l := by
    intro bb hbb l hlm
    obtain ⟨b, hbm, rfl⟩ := List.mem_map.mp hbb
    obtain ⟨s, hsm, rfl⟩ := List.mem_map.mp hlm
    exact ⟨(hline b hbm s hsm).1, (hline b hbm s hsm).2.2⟩
  have partA : parse_srt (String.mk (glueChars
      (blocks.map (fun b => b.map String.data)))) = blocks.map recordOfBlock := by
    cases hbk : blocks with
    | nil => subst hbk; rfl
    | cons b0 bt =>
      rw [← hbk]
      have htr := glue_trim_stable (blocks.map (fun b => b.map String.data))
        (by rw [hbk]; simp) hbls_b hbls_t
      rw [parse_srt_of_trim _ _ hbls_b hbls_l htr]
      rw [List.filterMap_map]
      exact filterMap_eq_map_of_some _ recordOfBlock blocks
        (fun b hbm => parseBlock_map_data b (h3 b hbm))
  refine ⟨partA, ?_⟩
  rw [partA]
  cases hbk : blocks with
  | nil => subst hbk; rfl
  | cons b0 bt =>
    rw [← hbk]
    have hsr := (serialize_records blocks h3).2 (by rw [hbk]; simp)
    have hconds := newBlockLines_conds blocks h3 hline hdig
    have hb2 : ∀ nb ∈ blocks.map newBlockLines, nb ≠ [] := by
      intro nb hnb
      obtain ⟨b, _, rfl⟩ := List.mem_map.mp hnb
      simp [newBlockLines]
    have hnb0 : blocks.map newBlockLines ≠ [] := by
      rw [hbk]; simp
    have htrg := glue_trim_stable (blocks.map newBlockLines) hnb0 hb2
      (fun nb hnb l hl => ⟨(hconds nb hnb l hl).1, (hconds nb hnb l hl).2.2⟩)
    have hparts := trim_stable_parts _ htrg
    have hgne := glue_ne_nil (blocks.map newBlockLines) hnb0 hb2
      (fun nb hnb l hl => (hconds nb hnb l hl).1)
    have htr2 : trimChars (glueChars (blocks.map newBlockLines) ++ ['\n', '\n']) =
        glueChars (blocks.map newBlockLines) :=
      trim_append_nn _ hgne hparts.1 hparts.2
    have hser : serialize ((blocks.map recordOfBlock).map setFallback) =
        String.mk (glueChars (blocks.map newBlockLines) ++ ['\n', '\n']) := by
      have : serialize ((blocks.map recordOfBlock).map setFallback) =
          String.mk ((serialize ((blocks.map recordOfBlock).map setFallback)).data) := rfl
      rw [this, hsr]
    rw [hser]
    rw [parse_srt_of_trim (blocks.map newBlockLines) _ hb2
      (fun nb hnb l hl => ⟨(hconds nb hnb l hl).1, (hconds nb hnb l hl).2.1⟩) htr2]
    rw [List.filterMap_map]
    exact filterMap_eq_map_of_some _ recordOfBlock blocks
      (fun b hbm => parseBlock_newBlockLines b (h3 b hbm)
        (hline b hbm _ (getD1_mem b (by have := h3 b hbm; omega))).2.2)

/-- Witness for C5 amended: two clean blocks (the second with a two-line
caption) parse to their two records, and serializing the fallback records
re-parses to the same two records. -/
theorem claim5_witness :
    parse_srt (String.mk (glueChars
      (([["1", "00:00", "Hi"], ["2", "00:01", "Yo", "swell"]] : List (List String)).map
        (fun b => b.map String.data)))) =
      ([["1", "00:00", "Hi"], ["2", "00:01", "Yo", "swell"]] : List (List String)).map
        recordOfBlock
    ∧ parse_srt (serialize
        ((parse_srt (String.mk (glueChars
          (([["1", "00:00", "Hi"], ["2", "00:01", "Yo", "swell"]] : List (List String)).map
            (fun b => b.map String.data))))).map setFallback)) =
      parse_srt (String.mk (glueChars
        (([["1", "00:00", "Hi"], ["2", "00:01", "Yo", "swell"]] : List (List String)).map
          (fun b => b.map String.data)))) :=
  claim5_roundtrip [["1", "00:00", "Hi"], ["2", "00:01", "Yo", "swell"]]
    (by decide) (by decide) (by decide)

/-- C8 amended: for every well-formed input (blocks of at least 3 non-empty,
newline-free lines, no surrounding whitespace), each record's timecode is
line 1 of its block with leading and trailing whitespace STRIPPED and no
other modification. -/
theorem claim8_amended (blocks : List (List String))
    (h3 : ∀ b ∈ blocks, 3 ≤ b.length)
    (hline : ∀ b ∈ blocks, ∀ l ∈ b, l.data ≠ [] ∧ '\n' ∉ l.data)
    (htr : trimChars (glueChars (blocks.map (fun b => b.map String.data))) =
      glueChars (blocks.map (fun b => b.map String.data))) :
    (parse_srt (String.mk (glueChars
        (blocks.map (fun b => b.map String.data))))).map (fun s => s.timestamp) =
      blocks.map (fun b => String.mk (trimChars ((b.getD 1 "").data))) := by
  have hbls_b : ∀ bb ∈ blocks.map (fun b => b.map String.data), bb ≠ [] := by
    intro bb hbb
    obtain ⟨b, hbm, rfl⟩ := List.mem_map.mp hbb
    have hbne : b ≠ [] := by
      intro h
      subst h
      simpa using h3 [] hbm
    simpa [List.map_eq_nil_iff] using hbne
  have hbls_l : ∀ bb ∈ blocks.map (fun b => b.map String.data),
      ∀ l ∈ bb, l ≠ [] ∧ '\n' ∉ l := by
    intro bb hbb l hlm
    obtain ⟨b, hbm, rfl⟩ := List.mem_map.mp hbb
    obtain ⟨s, hsm, rfl⟩ := List.mem_map.mp hlm
    exact ⟨(hline b hbm s hsm).1, (hline b hbm s hsm).2⟩
  rw [parse_srt_of_trim _ _ hbls_b hbls_l htr]
  rw [List.filterMap_map]
  have hfm := filterMap_eq_map_of_some
    (parseBlock ∘ fun b : List String => b.map String.data)
    recordOfBlock blocks (fun b hbm => parseBlock_map_data b (h3 b hbm))
  rw [hfm]
  rw [List.map_map]
  exact List.map_congr_left (fun b hb => rfl)

/-- Witness for C8 amended: the padded timecode line `" 00:00 "` is stored
as `"00:00"`. -/
theorem claim8_witness :
    (parse_srt (String.mk (glueChars
        (([["1", " 00:00 ", "Hi"]] : List (List String)).map
          (fun b => b.map String.data))))).map (fun s => s.timestamp) =
      ([["1", " 00:00 ", "Hi"]] : List (List String)).map
        (fun b => String.mk (trimChars ((b.getD 1 "").data))) :=
  claim8_amended [["1", " 00:00 ", "Hi"]] (by decide) (by decide) (by decide)
